import Mathlib

/-!
Verification of the `go.cli` repository: a shell-style tab-completion
engine (`completion/completion.go`) and a `key = value` configuration
loader (`config.go`).

The embedding is shallow: Go strings become `List Char` (one element per
character), Go slices become Lean lists, and the in-place mutation of the
caller's flag set becomes explicit state passing.  Code that can panic or
fail is modelled with `Option`/`Except`/error components.
-/

namespace GoCli

/-- A word of a command line, and generally a Go string: a list of
characters. -/
abbrev Word := List Char

/-! ## Command-line tokenizer (`parseLineForCompletion`) -/

/-- Whitespace recognised by the tokenizer: the Go `switch` cases
`' '` and `'\t'`. -/
def isWS (c : Char) : Bool := c == ' ' || c == '\t'

/-- Quote characters: the Go `switch` cases `'\''` and `'"'`. -/
def isQuote (c : Char) : Bool := c == '\'' || c == '"'

/-- The local state of `parseLineForCompletion`'s scanning loop:
the words emitted so far (`cl`), the current quote character (`quote`,
Go's `var quote rune` with `0` meaning none), whether the previous
character was an unconsumed backslash (`backslash`), and the characters
accumulated for the current word (`word`).  Go's `nil` word slice is the
empty list: the code only ever appends to `word` or resets it to `nil`,
so `word != nil` coincides with `word` being nonempty. -/
structure ParseState where
  cl : List Word
  quote : Option Char
  backslash : Bool
  word : Word
deriving Repr, DecidableEq

/-- One iteration of the `for _, char := range line[:point]` loop body of
`parseLineForCompletion`. -/
def parseStep (s : ParseState) (c : Char) : ParseState :=
  if s.backslash then { s with word := s.word ++ [c], backslash := false }
  else if c = '\\' then { s with word := s.word ++ [c], backslash := true }
  else
    match s.quote with
    | none =>
      if isQuote c then { s with word := s.word ++ [c], quote := some c }
      else if isWS c then
        if s.word = [] then { s with word := [] }
        else { s with cl := s.cl ++ [s.word], word := [] }
      else { s with word := s.word ++ [c] }
    | some q =>
      if c = q then { s with word := s.word ++ [c], quote := none }
      else { s with word := s.word ++ [c] }

/-- The body of `parseLineForCompletion` applied to the already-sliced
text before the cursor, `line[:point]`: fold the scanning loop over the
characters and unconditionally append the final (possibly empty) word,
Go's `return append(cl, string(word))`. -/
def parseCore (cs : List Char) : List Word :=
  let f := cs.foldl parseStep ⟨[], none, false, []⟩
  f.cl ++ [f.word]

/-- `parseLineForCompletion(line, point)`.  The Go function slices
`line[:point]` without a bounds check, which panics when `point` is
negative or exceeds the length of the line; the panic is modelled as
`none`. -/
def parseLineForCompletion (line : List Char) (point : Int) : Option (List Word) :=
  if 0 ≤ point ∧ point ≤ (line.length : Int) then
    some (parseCore (line.take point.toNat))
  else
    none

/-- `CommandLine.CurrentWord`, Go's `c[len(c)-1]`: the last word, with
the panic on an empty command line modelled as `none`. -/
def currentWord (cl : List Word) : Option Word := cl.getLast?

/-- The command line that `CompleteIfRequested` hands to the supplied
completer: the parse of the line up to the cursor with its first element
(the program name) dropped, Go's `parseLineForCompletion(line, int(point))[1:]`.
`none` models a panic inside the parse. -/
def dispatchCL (line : List Char) (point : Int) : Option (List Word) :=
  (parseLineForCompletion line point).map (fun cl => cl.drop 1)

/-! ## Flag-aware completion (`completeFlags`, `flagCompleter`) -/

/-- A registered flag: its name, and whether its value implements the
`boolFlag` interface with `IsBoolFlag()` returning `true` (a pure
boolean, no-argument flag). -/
structure Flag where
  name : Word
  isBool : Bool
deriving Repr, DecidableEq

/-- A `flag.FlagSet`, reduced to the two operations the repository uses:
lookup by name and visiting all flags.  The list holds the registered
flags (names are unique in a Go `FlagSet`). -/
abbrev FlagSet := List Flag

/-- `flag.FlagSet.Lookup`: find the flag with the given name. -/
def lookup (fs : FlagSet) (n : Word) : Option Flag :=
  fs.find? (fun f => f.name == n)

/-- Byte-wise lexicographic order on words, Go's `<` on strings,
used by `flag.FlagSet.VisitAll` to sort the flags by name. -/
def wordLt : Word → Word → Bool
  | [], [] => false
  | [], _ :: _ => true
  | _ :: _, [] => false
  | a :: as, b :: bs => if a = b then wordLt as bs else decide (a < b)

/-- Insert a flag into a name-sorted list of flags. -/
def insertFlag (f : Flag) : List Flag → List Flag
  | [] => [f]
  | g :: gs => if wordLt g.name f.name then g :: insertFlag f gs else f :: g :: gs

/-- `flag.FlagSet.VisitAll` visits the registered flags in lexicographic
order of their names; this returns them in that order. -/
def visitAll (fs : FlagSet) : List Flag := fs.foldr insertFlag []

/-- The flag-word test of `completeFlags`'s loop:
`len(w) > 1 && w[0] == '-' && w != "--"`. -/
def isFlagWord (w : Word) : Bool :=
  decide (1 < w.length) && (w.head? == some '-') && !(w == ['-', '-'])

/-- Strip all leading dashes: both the manual
`for i = 0; i < len(w) && w[i] == '-'; i++` loop and
`strings.TrimLeft(cl[0], "-")`. -/
def dropDashes (w : Word) : Word := w.dropWhile (fun c => c == '-')

/-- The dash-word branch of `completeFlags`'s loop, entered with
`inFlag == ""`: unless the word contains `=`, `inFlag` becomes the
dash-stripped name; then, if the flag set has a flag of that name whose
value is a no-argument boolean flag, `inFlag` is cleared again.  Returns
the resulting `inFlag`. -/
def scanStepFlag (fs : FlagSet) (w : Word) : Word :=
  let inFlag := if w.contains '=' then [] else dropDashes w
  match lookup fs inFlag with
  | some f => if f.isBool then [] else inFlag
  | none => inFlag

/-- Outcome of `completeFlags`'s `for len(cl) > 1` loop: either the loop
returned early at a non-flag word (`return nil, cl`, with a leading `--`
itself consumed), or it ran to completion, leaving the final `inFlag`
and the remaining command line (the final word). -/
inductive ScanResult where
  | stopped (rest : List Word)
  | reached (inFlag : Word) (cl : List Word)
deriving Repr, DecidableEq

/-- The `for len(cl) > 1` loop of `completeFlags`. -/
def scanLoop (fs : FlagSet) (inFlag : Word) : List Word → ScanResult
  | w :: r :: rest =>
    if inFlag ≠ [] then scanLoop fs [] (r :: rest)
    else if isFlagWord w then scanLoop fs (scanStepFlag fs w) (r :: rest)
    else if w = ['-', '-'] then ScanResult.stopped (r :: rest)
    else ScanResult.stopped (w :: r :: rest)
  | cl => ScanResult.reached inFlag cl

/-- `completeFlags(cl, flags)`: scan the non-final words consuming flag
tokens, then complete the final word.  The second component is `rest`,
with `none` modelling a `nil` rest (the wrapper then does not invoke the
inner completer) and `some` a non-nil one.  The unreachable inner `[]`
case (the scan keeps at least one word when given one; Go would panic at
`cl[0]`) is mapped to `([], some [])`. -/
def completeFlags (fs : FlagSet) (cl : List Word) : List Word × Option (List Word) :=
  match cl with
  | [] => ([], some [])
  | _ :: _ =>
    match scanLoop fs [] cl with
    | ScanResult.stopped rest => ([], some rest)
    | ScanResult.reached inFlag cl' =>
      match cl' with
      | [] => ([], some [])
      | last :: _ =>
        if inFlag ≠ [] then ([], none)
        else if last.head? = some '-' then
          (((visitAll fs).filter (fun f => (dropDashes last).isPrefixOf f.name)).map
              (fun f => '-' :: f.name),
            none)
        else if last = [] then
          ((visitAll fs).map (fun f => '-' :: f.name), some cl')
        else ([], some cl')

/-- `flagCompleter.Complete`: run `completeFlags` and, when `rest` is
non-nil, append the inner completer's results for it. -/
def flagComplete (fs : FlagSet) (inner : List Word → List Word) (cl : List Word) :
    List Word :=
  match completeFlags fs cl with
  | (completions, none) => completions
  | (completions, some rest) => completions ++ inner rest

/-! ## Configuration loader (`config.go`) -/

/-- ASCII whitespace as trimmed by `strings.TrimSpace` (which also trims
other Unicode space characters; the repository and its spec only involve
these). -/
def isSpace (c : Char) : Bool :=
  c == ' ' || c == '\t' || c == '\n' || c == '\x0b' || c == '\x0c' || c == '\r'

/-- `strings.TrimSpace`: drop whitespace from both ends. -/
def trim (w : Word) : Word :=
  ((w.dropWhile isSpace).reverse.dropWhile isSpace).reverse

/-- `strings.SplitN(line, "=", 2)`: split at the first occurrence of the
character, `none` when it does not occur (Go then returns a single-chunk
slice and `ParseConfig` reports an illegal line). -/
def splitFirst (c : Char) : Word → Option (Word × Word)
  | [] => none
  | x :: xs =>
    if x = c then some ([], xs)
    else (splitFirst c xs).map (fun p => (x :: p.1, p.2))

/-- Trailing-`\r` removal performed by `bufio.ScanLines` on each line. -/
def dropCR (w : Word) : Word :=
  if w.getLast? = some '\r' then w.dropLast else w

/-- Worker for `splitLines`, accumulating the current line. -/
def splitLinesAux : List Char → Word → List Word
  | [], cur => if cur = [] then [] else [dropCR cur]
  | c :: rest, cur =>
    if c = '\n' then dropCR cur :: splitLinesAux rest []
    else splitLinesAux rest (cur ++ [c])

/-- `bufio.Scanner` with the default `ScanLines` split: break the stream
at newlines; a final newline produces no trailing empty line, and a last
line without a newline is still returned. -/
def splitLines (cs : List Char) : List Word := splitLinesAux cs []

/-- The errors `ParseConfig` returns: `Illegal config line` (carrying
the trimmed line), `Unknown option` (carrying `bits[0]`, the text before
the first `=`), or the flag setter's own error propagated unchanged. -/
inductive ConfigError (ε : Type) where
  | illegalLine (line : Word)
  | unknownOption (key : Word)
  | setErr (e : ε)
deriving Repr, DecidableEq

/-- The caller-owned `flag.FlagSet` collaborator as the config loader
uses it: membership (`flags.Lookup(key) != nil`) and the stateful setter
(`flags.Set(key, value)`), which may fail with a flag-specific error of
type `ε`; the flag-set state has abstract type `σ` and a failing setter
leaves it unchanged. -/
structure ConfigSet (σ ε : Type) where
  member : Word → Bool
  setf : Word → Word → σ → Except ε σ

/-- The line loop of `ParseConfig`, state-passing for the in-place
mutation of the Go flag set: the returned `σ` is the flag set after the
run, alongside `none` on success or the first error.  Flags set before a
failing line remain set in the returned state. -/
def parseConfigLines {σ ε : Type} (cs : ConfigSet σ ε) :
    List Word → σ → σ × Option (ConfigError ε)
  | [], st => (st, none)
  | l :: rest, st =>
    let line := trim l
    if line = [] ∨ line.head? = some '#' then parseConfigLines cs rest st
    else
      match splitFirst '=' line with
      | none => (st, some (ConfigError.illegalLine line))
      | some (k, v) =>
        if cs.member (trim k) then
          match cs.setf (trim k) (trim v) st with
          | Except.ok st' => parseConfigLines cs rest st'
          | Except.error e => (st, some (ConfigError.setErr e))
        else (st, some (ConfigError.unknownOption k))

/-- `ParseConfig(flags, f)`: split the stream into lines and run the
line loop. -/
def ParseConfig {σ ε : Type} (cs : ConfigSet σ ε) (input : List Char) (st : σ) :
    σ × Option (ConfigError ε) :=
  parseConfigLines cs (splitLines input) st

/-- The outcome of `os.Open` on the config path: the file is missing
(`os.IsNotExist(err)`), opening failed some other way, or it opened with
the given contents. -/
inductive OpenResult (ω : Type) where
  | notExist
  | openError (e : ω)
  | opened (content : List Char)

/-- The path `LoadConfig` opens:
`os.ExpandEnv(fmt.Sprintf("${HOME}/.%s", basename))`, the home
directory joined with the dot-prefixed caller-supplied base name. -/
def configPath (home basename : Word) : Word :=
  home ++ '/' :: '.' :: basename

/-- `LoadConfig(flags, basename)` given the outcome of opening the fixed
per-user path: a missing file is success with the flag set untouched,
any other open failure is returned as an error (`Sum.inl`), and an
opened file is parsed with `ParseConfig` (its errors in `Sum.inr`). -/
def LoadConfig {σ ε ω : Type} (cs : ConfigSet σ ε) (o : OpenResult ω) (st : σ) :
    σ × Option (ω ⊕ ConfigError ε) :=
  match o with
  | OpenResult.notExist => (st, none)
  | OpenResult.openError e => (st, some (Sum.inl e))
  | OpenResult.opened content =>
    match ParseConfig cs content st with
    | (st', none) => (st', none)
    | (st', some e) => (st', some (Sum.inr e))

/-! ## A sample flag set

The flag values themselves live in Go's `flag` package, outside this
repository; the spec's config example uses an integer flag `int` and a
string flag `string`.  Modelled from the spec: an integer flag whose
setter accepts an optional sign followed by decimal digits (rejecting
anything else), and a string flag whose setter always succeeds. -/

/-- Decimal digit accumulation; `none` on a non-digit or empty input. -/
def digitsToNatAux : List Char → Nat → Option Nat
  | [], acc => some acc
  | c :: rest, acc =>
    if c.isDigit then digitsToNatAux rest (acc * 10 + (c.toNat - '0'.toNat))
    else none

/-- Parse a nonempty run of decimal digits. -/
def digitsToNat : Word → Option Nat
  | [] => none
  | cs => digitsToNatAux cs 0

/-- Modelled from the spec: the integer flag's setter parses an optional
sign followed by decimal digits. -/
def parseIntWord (w : Word) : Option Int :=
  match w with
  | '-' :: rest => (digitsToNat rest).map (fun n => -(n : Int))
  | '+' :: rest => (digitsToNat rest).map (fun n => (n : Int))
  | _ => (digitsToNat w).map (fun n => (n : Int))

/-- Modelled from the spec: a flag set with an integer flag `int` and a
string flag `string`, as in the spec's config-parsing example.  The
state is the pair of their values; a rejected integer value is reported
as an error carrying the offending text. -/
def testFlags : ConfigSet (Int × Word) Word where
  member := fun k => k == "int".data || k == "string".data
  setf := fun k v st =>
    if k = "int".data then
      match parseIntWord v with
      | some n => Except.ok (n, st.2)
      | none => Except.error v
    else Except.ok (st.1, v)

/-- The flag set of the flag-completion example in the spec: a
no-argument boolean flag `bool` and value-taking flags `int`, `str`,
`str1`. -/
def exampleFlagSet : FlagSet :=
  [⟨"bool".data, true⟩, ⟨"int".data, false⟩, ⟨"str".data, false⟩, ⟨"str1".data, false⟩]

/-! ## Reference splitter for quote-free lines -/

/-- Characters with tokenizer semantics beyond accumulation: the two
quote characters and the backslash. -/
def isSpecial (c : Char) : Bool := c == '\'' || c == '"' || c == '\\'

/-- Reference splitter stated from the words of the spec: split on runs
of spaces and tabs, collapsing consecutive separators, emitting no empty
words, and unconditionally append the final (possibly empty) word.  The
accumulator `cur` is the word in progress. -/
def splitWS : List Char → Word → List Word
  | [], cur => [cur]
  | c :: rest, cur =>
    if isWS c then
      if cur = [] then splitWS rest []
      else cur :: splitWS rest []
    else splitWS rest (cur ++ [c])

/-! ## Tokenizer lemmas -/

lemma splitWS_ne_nil (cs : List Char) : ∀ cur : Word, splitWS cs cur ≠ [] := by
  induction cs with
  | nil => intro cur; simp [splitWS]
  | cons c rest ih =>
    intro cur
    simp only [splitWS]
    split
    · split
      · exact ih []
      · simp
    · exact ih (cur ++ [c])

lemma splitWS_dropLast_ne_nil (cs : List Char) :
    ∀ cur : Word, ∀ w ∈ (splitWS cs cur).dropLast, w ≠ [] := by
  induction cs with
  | nil => intro cur; simp [splitWS]
  | cons c rest ih =>
    intro cur
    simp only [splitWS]
    split
    · split
      · exact ih []
      · rename_i hcur
        rw [List.dropLast_cons_of_ne_nil (splitWS_ne_nil rest [])]
        intro w hw
        rcases List.mem_cons.mp hw with h | h
        · exact h ▸ hcur
        · exact ih [] w h
    · exact ih (cur ++ [c])

lemma splitWS_getLast_ws (cs : List Char) (c' : Char) :
    cs.getLast? = some c' → isWS c' = true →
      ∀ cur : Word, (splitWS cs cur).getLast? = some [] := by
  induction cs with
  | nil => intro h; simp at h
  | cons c rest ih =>
    intro hlast hws cur
    cases rest with
    | nil =>
      simp only [List.getLast?_singleton, Option.some.injEq] at hlast
      subst hlast
      simp only [splitWS, hws, if_true]
      split <;> simp [splitWS]
    | cons d rest' =>
      have hlast' : (d :: rest').getLast? = some c' := by
        rwa [List.getLast?_cons_cons] at hlast
      have htail : ∀ cur : Word, (splitWS (d :: rest') cur).getLast? = some [] :=
        ih hlast' hws
      simp only [splitWS]
      split
      · split
        · exact htail []
        · show (cur :: splitWS (d :: rest') []).getLast? = some []
          obtain ⟨e, l', hl⟩ := List.exists_cons_of_ne_nil (splitWS_ne_nil (d :: rest') [])
          rw [hl, List.getLast?_cons_cons, ← hl]
          exact htail []
      · exact htail (cur ++ [c])

lemma splitWS_all_ws (cs : List Char) (h : ∀ c ∈ cs, isWS c = true) :
    splitWS cs [] = [[]] := by
  induction cs with
  | nil => simp [splitWS]
  | cons c rest ih =>
    have hc := h c (List.mem_cons_self c rest)
    simp only [splitWS, hc, if_true, if_pos rfl]
    exact ih fun x hx => h x (List.mem_cons_of_mem _ hx)

/-- On text with no quote characters and no backslashes, the scanning
fold of `parseLineForCompletion` agrees with the reference whitespace
splitter, from any whitespace-splitting state. -/
lemma foldl_parseStep_no_special (cs : List Char) (hq : ∀ c ∈ cs, isSpecial c = false) :
    ∀ (cl : List Word) (word : Word),
      (cs.foldl parseStep ⟨cl, none, false, word⟩).cl ++
          [(cs.foldl parseStep ⟨cl, none, false, word⟩).word] =
        cl ++ splitWS cs word := by
  induction cs with
  | nil => intro cl word; simp [splitWS]
  | cons c rest ih =>
    intro cl word
    have hc : isSpecial c = false := hq c (List.mem_cons_self c rest)
    have hrest : ∀ x ∈ rest, isSpecial x = false :=
      fun x hx => hq x (List.mem_cons_of_mem _ hx)
    have hbs : ¬(c = '\\') := by
      intro h; subst h; simp [isSpecial] at hc
    have hquote : isQuote c = false := by
      simp only [isSpecial, Bool.or_eq_false_iff] at hc
      simp [isQuote, hc.1.1, hc.1.2]
    by_cases hws : isWS c = true
    · by_cases hw : word = []
      · subst hw
        simp only [List.foldl_cons, parseStep, if_neg hbs, hquote, hws,
          Bool.false_eq_true, if_false, if_true, if_pos rfl]
        rw [ih hrest cl []]
        simp [splitWS, hws]
      · simp only [List.foldl_cons, parseStep, if_neg hbs, hquote, hws,
          Bool.false_eq_true, if_false, if_true, if_neg hw]
        rw [ih hrest (cl ++ [word]) []]
        simp [splitWS, hws, hw, List.append_assoc]
    · have hws' : isWS c = false := by simpa using hws
      simp only [List.foldl_cons, parseStep, if_neg hbs, hquote, hws',
        Bool.false_eq_true, if_false]
      rw [ih hrest cl (word ++ [c])]
      simp [splitWS, hws']

/-- C3: for a line with no quote characters and no backslashes,
tokenization up to the cursor is a pure whitespace split: it equals the
reference splitter, emits no empty word except the unconditionally
appended final one, always yields at least one word, yields an explicit
empty final word when the text before the cursor ends in whitespace, and
yields exactly one empty word when that text is all whitespace. -/
theorem c3_whitespace_tokenization (line : List Char) (point : Nat)
    (hp : point ≤ line.length) (hq : ∀ c ∈ line, isSpecial c = false) :
    parseLineForCompletion line (point : Int) = some (splitWS (line.take point) []) ∧
    (∀ w ∈ (parseCore (line.take point)).dropLast, w ≠ []) ∧
    parseCore (line.take point) ≠ [] ∧
    (∀ c' : Char, (line.take point).getLast? = some c' → isWS c' = true →
      (parseCore (line.take point)).getLast? = some []) ∧
    ((∀ c ∈ line.take point, isWS c = true) → parseCore (line.take point) = [[]]) := by
  have hqt : ∀ c ∈ line.take point, isSpecial c = false :=
    fun c hc => hq c (List.take_subset point line hc)
  have hcore : parseCore (line.take point) = splitWS (line.take point) [] := by
    simpa [parseCore] using foldl_parseStep_no_special (line.take point) hqt [] []
  refine ⟨?_, ?_, ?_, ?_, ?_⟩
  · have hcond : 0 ≤ (point : Int) ∧ (point : Int) ≤ (line.length : Int) :=
      ⟨Int.natCast_nonneg _, by exact_mod_cast hp⟩
    simp [parseLineForCompletion, hcond, hcore]
  · exact hcore ▸ splitWS_dropLast_ne_nil (line.take point) []
  · exact hcore ▸ splitWS_ne_nil (line.take point) []
  · intro c' hlast hws
    exact hcore ▸ splitWS_getLast_ws (line.take point) c' hlast hws []
  · intro hall
    exact hcore.trans (splitWS_all_ws (line.take point) hall)

/-- Witness for C3 at the line `"a b "` with the cursor at its end:
the trailing whitespace yields the explicit empty final word. -/
theorem c3_whitespace_tokenization_witness :
    parseLineForCompletion "a b ".data ((4 : Nat) : Int) = some [['a'], ['b'], []] := by
  have h := (c3_whitespace_tokenization "a b ".data 4 (by decide) (by decide)).1
  rw [h]; decide

/-- Inside a quote, characters that are neither the quote character nor
a backslash are appended verbatim and the state is otherwise
unchanged. -/
lemma foldl_parseStep_in_quote (q : Char) (ws : List Char)
    (h : ∀ c ∈ ws, ¬c = q ∧ ¬c = '\\') :
    ∀ (cl : List Word) (word : Word),
      ws.foldl parseStep ⟨cl, some q, false, word⟩ = ⟨cl, some q, false, word ++ ws⟩ := by
  induction ws with
  | nil => intro cl word; simp
  | cons c rest ih =>
    intro cl word
    have hc := h c (List.mem_cons_self c rest)
    have hrest : ∀ x ∈ rest, ¬x = q ∧ ¬x = '\\' :=
      fun x hx => h x (List.mem_cons_of_mem _ hx)
    have hstep : parseStep ⟨cl, some q, false, word⟩ c = ⟨cl, some q, false, word ++ [c]⟩ := by
      simp [parseStep, hc.1, hc.2]
    rw [List.foldl_cons, hstep, ih hrest cl (word ++ [c])]
    simp

/-- C4: quote characters are retained verbatim in the emitted word;
whitespace between a quote character and its matching close does not
split the word; an unterminated quote at the cursor still emits the
partial word; and a backslash escapes the immediately following
character, including a quote character, so that the concrete input
consisting of a single-quoted word with an escaped inner quote is
tokenized as one word up to the cursor. -/
theorem c4_quote_handling :
    (∀ (q : Char) (ws : List Char), (q = '\'' ∨ q = '"') →
      (∀ c ∈ ws, ¬c = q ∧ ¬c = '\\') →
      parseCore (q :: ws) = [q :: ws] ∧
      parseCore ((q :: ws) ++ [q]) = [(q :: ws) ++ [q]]) ∧
    parseCore "'a\\' b'".data = ["'a\\' b'".data] := by
  constructor
  · intro q ws hq hws
    have hbs : ¬q = '\\' := by rcases hq with h | h <;> subst h <;> decide
    have hquote : isQuote q = true := by
      rcases hq with h | h <;> subst h <;> decide
    have hstart :
        parseStep ⟨[], none, false, []⟩ q = ⟨[], some q, false, [q]⟩ := by
      simp [parseStep, if_neg hbs, hquote]
    have hfold : (q :: ws).foldl parseStep ⟨[], none, false, []⟩
        = ⟨[], some q, false, q :: ws⟩ := by
      rw [List.foldl_cons, hstart, foldl_parseStep_in_quote q ws hws [] [q]]
      simp
    constructor
    · show (let f := (q :: ws).foldl parseStep ⟨[], none, false, []⟩
        f.cl ++ [f.word]) = [q :: ws]
      rw [hfold]
      simp
    · show (let f := ((q :: ws) ++ [q]).foldl parseStep ⟨[], none, false, []⟩
        f.cl ++ [f.word]) = [(q :: ws) ++ [q]]
      rw [List.foldl_append, hfold]
      simp [parseStep, if_neg hbs]
  · decide

/-- Witness for C4 on the word containing a quoted space: both the
unterminated and the matched quote keep it one word, quotes retained. -/
theorem c4_quote_handling_witness :
    parseCore "'a b".data = ["'a b".data] ∧ parseCore "'a b'".data = ["'a b'".data] :=
  c4_quote_handling.1 '\'' "a b".data (Or.inl rfl) (by decide)

/-- C10: the tokenizer is total for offsets between 0 and the length of
the line, and panics (modelled as `none`) for offsets beyond the length
or negative; the dispatcher performs no bounds check of its own, so for
an integer offset beyond the line it reaches the panic. -/
theorem c10_tokenizer_partiality :
    (∀ (line : List Char) (point : Int), 0 ≤ point → point ≤ (line.length : Int) →
      (parseLineForCompletion line point).isSome = true) ∧
    parseLineForCompletion "ab".data 3 = none ∧
    parseLineForCompletion "ab".data (-1) = none ∧
    dispatchCL "ab".data 3 = none := by
  refine ⟨?_, by decide, by decide, by decide⟩
  intro line point h1 h2
  simp [parseLineForCompletion, h1, h2]

/-- Witness for C10 at an in-range offset. -/
theorem c10_tokenizer_partiality_witness :
    (parseLineForCompletion "ab".data 1).isSome = true :=
  c10_tokenizer_partiality.1 "ab".data 1 (by decide) (by decide)

/-- C2 counterexample: for the line `"x"` with cursor offset 1 — inputs
the completion dispatcher accepts — the command line passed to the
completer (after dropping the program name) is empty, and `CurrentWord`
on an empty command line panics (modelled as `none`), contradicting the
claimed invariant that it always has at least one element. -/
theorem c2_counterexample :
    dispatchCL "x".data 1 = some [] ∧ currentWord ([] : List Word) = none := by
  decide

/-- C2 amended: the parse itself always yields at least one word; the
command line handed to the completer (the parse with its first word
dropped) is empty exactly when the parse produced a single word, and
whenever the parse produced at least two words the completer receives a
nonempty command line on which `CurrentWord` succeeds. -/
theorem c2_commandline_nonempty_amended (cs : List Char) :
    parseCore cs ≠ [] ∧
    ((parseCore cs).drop 1 = [] ↔ (parseCore cs).length = 1) ∧
    (1 < (parseCore cs).length →
      ∃ w, currentWord ((parseCore cs).drop 1) = some w) := by
  have hne : parseCore cs ≠ [] := by simp [parseCore]
  have hlen : 1 ≤ (parseCore cs).length := by
    cases hpc : parseCore cs with
    | nil => exact absurd hpc hne
    | cons a tl => simp
  refine ⟨hne, ?_, ?_⟩
  · rw [List.drop_eq_nil_iff]
    omega
  · intro h
    have hner : (parseCore cs).drop 1 ≠ [] := by
      rw [Ne, List.drop_eq_nil_iff]
      omega
    have := List.getLast?_isSome.mpr hner
    exact Option.isSome_iff_exists.mp this

/-- Witness for C2 amended at a two-word line. -/
theorem c2_commandline_nonempty_amended_witness :
    ∃ w, currentWord ((parseCore "x y".data).drop 1) = some w :=
  (c2_commandline_nonempty_amended "x y".data).2.2 (by decide)

/-- C1 counterexample: with only the value-taking flag `str` registered,
the unknown dash word `-wtf` still marks a pending flag value, so the
following word `x` is consumed as that value rather than scanned as a
normal word: the whole run ends completing the empty final word to all
flags, not stopping the scan with rest `["x", ""]`. -/
theorem c1_counterexample :
    completeFlags [⟨"str".data, false⟩] ["-wtf".data, "x".data, []]
        = (["-str".data], some [[]]) ∧
    completeFlags [⟨"str".data, false⟩] ["-wtf".data, "x".data, []]
        ≠ (([] : List Word), some ["x".data, []]) := by
  decide

/-- C1 amended: a non-final word of length at least 2 beginning with
`-`, not exactly `--` and containing no `=`, marks a pending flag value
unless its dash-stripped name is empty or names a registered pure
boolean (no-argument) flag — in particular an unknown flag name also
marks a pending value — and when a value is pending the immediately
following word is consumed as that value (when that word is final, the
loop ends with the value pending); only when no value is pending is the
following word scanned as a normal word. -/
theorem c1_pending_flag_amended (fs : FlagSet) (w w2 : Word) (tl : List Word)
    (h1 : isFlagWord w = true) (h2 : w.contains '=' = false) :
    (scanStepFlag fs w = [] ↔
      dropDashes w = [] ∨ ∃ f, lookup fs (dropDashes w) = some f ∧ f.isBool = true) ∧
    scanLoop fs [] (w :: w2 :: tl) =
      (if scanStepFlag fs w = [] then scanLoop fs [] (w2 :: tl)
       else
         match tl with
         | [] => ScanResult.reached (scanStepFlag fs w) [w2]
         | t :: ts => scanLoop fs [] (t :: ts)) := by
  constructor
  · simp only [scanStepFlag, h2, Bool.false_eq_true, if_false]
    cases hlk : lookup fs (dropDashes w) with
    | none => simp
    | some f =>
      cases hb : f.isBool with
      | true => simp [hb]
      | false => simp [hb]
  · have hstep : scanLoop fs [] (w :: w2 :: tl)
        = scanLoop fs (scanStepFlag fs w) (w2 :: tl) := by
      simp [scanLoop, h1]
    rw [hstep]
    by_cases hsf : scanStepFlag fs w = []
    · rw [if_pos hsf, hsf]
    · rw [if_neg hsf]
      cases tl with
      | nil => simp [scanLoop]
      | cons t ts => simp [scanLoop, hsf]

/-- Witness for C1 amended: the unknown flag `-wtf` consumes `x`, so the
scan reaches the final empty word with nothing pending. -/
theorem c1_pending_flag_amended_witness :
    scanLoop [⟨"str".data, false⟩] [] ["-wtf".data, "x".data, []]
      = ScanResult.reached [] [[]] := by
  have h := (c1_pending_flag_amended [⟨"str".data, false⟩] "-wtf".data "x".data [[]]
    (by decide) (by decide)).2
  rw [h]; decide

/-- C5: when the scan completes with no value pending and the final word
starts with `-`, the completions are exactly the registered flag names
having the dash-stripped final word as a prefix, each with a single `-`
prepended, `rest` is nil, and the inner strategy is never invoked. -/
theorem c5_flag_name_completion (fs : FlagSet) (cl : List Word) (last : Word)
    (h : scanLoop fs [] cl = ScanResult.reached [] [last])
    (hd : last.head? = some '-') :
    completeFlags fs cl =
      (((visitAll fs).filter (fun f => (dropDashes last).isPrefixOf f.name)).map
          (fun f => '-' :: f.name), none) ∧
    ∀ inner : List Word → List Word,
      flagComplete fs inner cl =
        ((visitAll fs).filter (fun f => (dropDashes last).isPrefixOf f.name)).map
          (fun f => '-' :: f.name) := by
  have hne : cl ≠ [] := by
    intro hcl
    rw [hcl] at h
    simp [scanLoop] at h
  have hcf : completeFlags fs cl =
      (((visitAll fs).filter (fun f => (dropDashes last).isPrefixOf f.name)).map
          (fun f => '-' :: f.name), none) := by
    obtain ⟨a, tl, rfl⟩ := List.exists_cons_of_ne_nil hne
    simp only [completeFlags]
    rw [h]
    simp [hd]
  exact ⟨hcf, fun inner => by simp [flagComplete, hcf]⟩

/-- Witness for C5: completing `-str` against the example flag set. -/
theorem c5_flag_name_completion_witness :
    completeFlags exampleFlagSet ["-str".data] = (["-str".data, "-str1".data], none) := by
  have h := (c5_flag_name_completion exampleFlagSet ["-str".data] "-str".data
    (by decide) (by decide)).1
  rw [h]; decide

/-- C6: when the scan completes with no value pending and an empty final
word, the completions are all registered flag names dash-prefixed,
followed by the inner completions of the remaining command line (flags
first); and when a flag value is pending at the final word, the result
is empty and the inner strategy is never invoked. -/
theorem c6_empty_word_and_pending (fs : FlagSet) (cl : List Word) :
    (scanLoop fs [] cl = ScanResult.reached [] [[]] →
      completeFlags fs cl = ((visitAll fs).map (fun f => '-' :: f.name), some [[]]) ∧
      ∀ inner : List Word → List Word,
        flagComplete fs inner cl =
          (visitAll fs).map (fun f => '-' :: f.name) ++ inner [[]]) ∧
    (∀ (inFlag last : Word),
      scanLoop fs [] cl = ScanResult.reached inFlag [last] → inFlag ≠ [] →
      completeFlags fs cl = ([], none) ∧
      ∀ inner : List Word → List Word, flagComplete fs inner cl = []) := by
  constructor
  · intro h
    have hne : cl ≠ [] := by
      intro hcl
      rw [hcl] at h
      simp [scanLoop] at h
    have hcf : completeFlags fs cl =
        ((visitAll fs).map (fun f => '-' :: f.name), some [[]]) := by
      obtain ⟨a, tl, rfl⟩ := List.exists_cons_of_ne_nil hne
      simp only [completeFlags]
      rw [h]
      simp
    exact ⟨hcf, fun inner => by simp [flagComplete, hcf]⟩
  · intro inFlag last h hpend
    have hne : cl ≠ [] := by
      intro hcl
      rw [hcl] at h
      simp only [scanLoop, ScanResult.reached.injEq] at h
      exact List.cons_ne_nil last [] h.2.symm
    have hcf : completeFlags fs cl = ([], none) := by
      obtain ⟨a, tl, rfl⟩ := List.exists_cons_of_ne_nil hne
      simp only [completeFlags]
      rw [h]
      simp [hpend]
    exact ⟨hcf, fun inner => by simp [flagComplete, hcf]⟩

/-- Witness for C6: a consumed boolean flag before an empty word yields
all flags with delegation; a pending `-str` value suppresses
completion. -/
theorem c6_empty_word_and_pending_witness :
    completeFlags exampleFlagSet ["-bool".data, []]
        = (["-bool".data, "-int".data, "-str".data, "-str1".data], some [[]]) ∧
    completeFlags exampleFlagSet ["-str".data, []] = ([], none) := by
  constructor
  · exact (((c6_empty_word_and_pending exampleFlagSet ["-bool".data, []]).1
      (by decide)).1).trans (by decide)
  · exact ((c6_empty_word_and_pending exampleFlagSet ["-str".data, []]).2
      "str".data [] (by decide) (by decide)).1

/-! ## Config lemmas -/

/-- Splitting at the first separator finds the first occurrence: all
further separators stay in the second component. -/
lemma splitFirst_first_eq (pre post : Word) (h : '=' ∉ pre) :
    splitFirst '=' (pre ++ '=' :: post) = some (pre, post) := by
  induction pre with
  | nil => simp [splitFirst]
  | cons x xs ih =>
    have hx : ¬x = '=' := fun hx => h (hx ▸ List.mem_cons_self x xs)
    have hxs : '=' ∉ xs := fun hm => h (List.mem_cons_of_mem _ hm)
    simp [splitFirst, hx, ih hxs]

/-- The line loop processes a concatenation of line lists sequentially,
stopping at the first error and carrying the state across. -/
lemma parseConfigLines_append {σ ε : Type} (cs : ConfigSet σ ε) (l1 l2 : List Word) :
    ∀ st : σ,
      parseConfigLines cs (l1 ++ l2) st =
        (match parseConfigLines cs l1 st with
         | (st', none) => parseConfigLines cs l2 st'
         | (st', some e) => (st', some e)) := by
  induction l1 with
  | nil => intro st; simp [parseConfigLines]
  | cons l rest ih =>
    intro st
    simp only [List.cons_append, parseConfigLines]
    by_cases hskip : trim l = [] ∨ (trim l).head? = some '#'
    · rw [if_pos hskip, if_pos hskip]
      exact ih st
    · rw [if_neg hskip, if_neg hskip]
      cases hsp : splitFirst '=' (trim l) with
      | none => simp
      | some kv =>
        obtain ⟨k, v⟩ := kv
        by_cases hm : cs.member (trim k) = true
        · simp only [hm, if_true]
          cases hset : cs.setf (trim k) (trim v) st with
          | ok st' => exact ih st'
          | error e => simp
        · simp only [Bool.not_eq_true] at hm
          simp [hm]

/-- C7: the config parser processes lines in order: a line that trims to
empty or whose first non-whitespace character is `#` is skipped; any
other line is split at its first `=` into a key and a value, each
trimmed only at its outer edges (all further `=` characters belong to
the value), and the value is applied to the flag of that key through the
setter of the flag set; the concrete stream of the spec sets the `int`
flag to 17 and the `string` flag to `hello world`. -/
theorem c7_config_line_parsing {σ ε : Type} (cs : ConfigSet σ ε) (st : σ)
    (rest : List Word) :
    (∀ l : Word, (trim l = [] ∨ (trim l).head? = some '#') →
      parseConfigLines cs (l :: rest) st = parseConfigLines cs rest st) ∧
    (∀ (l pre post : Word), trim l = pre ++ '=' :: post → '=' ∉ pre →
      (pre ++ '=' :: post).head? ≠ some '#' →
      parseConfigLines cs (l :: rest) st =
        (if cs.member (trim pre) then
          match cs.setf (trim pre) (trim post) st with
          | Except.ok st' => parseConfigLines cs rest st'
          | Except.error e => (st, some (ConfigError.setErr e))
         else (st, some (ConfigError.unknownOption pre)))) ∧
    ParseConfig testFlags "int = 17\nstring = hello world\n".data (0, "STRING".data)
      = ((17, "hello world".data), none) := by
  refine ⟨?_, ?_, by decide⟩
  · intro l hskip
    simp only [parseConfigLines]
    rw [if_pos hskip]
  · intro l pre post hsplit hpre hhash
    have hcond : ¬(trim l = [] ∨ (trim l).head? = some '#') := by
      rw [hsplit]
      push_neg
      exact ⟨by simp, hhash⟩
    simp only [parseConfigLines]
    rw [if_neg hcond, hsplit, splitFirst_first_eq pre post hpre]

/-- Witness for C7: a comment line is skipped and a `key = value` line
with a further `=` keeps it inside the value. -/
theorem c7_config_line_parsing_witness :
    parseConfigLines testFlags ["# note".data, "int=4".data] (0, "STRING".data)
        = parseConfigLines testFlags ["int=4".data] (0, "STRING".data) ∧
    parseConfigLines testFlags ["string = a=b".data] (0, "STRING".data)
        = ((0, "a=b".data), none) := by
  constructor
  · exact (c7_config_line_parsing testFlags (0, "STRING".data) ["int=4".data]).1
      "# note".data (Or.inr (by decide))
  · exact ((c7_config_line_parsing testFlags (0, "STRING".data) []).2.1
      "string = a=b".data "string ".data " a=b".data (by decide) (by decide)
      (by decide)).trans (by decide)

/-- C8: config parsing stops at the first failing line, returning a
malformed-line error when the line lacks `=`, an unknown-key error
naming the key when the flag set has no such flag, or the rejection of
the setter propagated unchanged; the state reached by the earlier
successful lines is kept — no rollback — and the lines after the
failing one are never processed. -/
theorem c8_first_error_no_rollback {σ ε : Type} (cs : ConfigSet σ ε)
    (good : List Word) (bad : Word) (rest : List Word) (st st' : σ)
    (hgood : parseConfigLines cs good st = (st', none)) :
    (splitFirst '=' (trim bad) = none → trim bad ≠ [] →
      (trim bad).head? ≠ some '#' →
      parseConfigLines cs (good ++ bad :: rest) st
        = (st', some (ConfigError.illegalLine (trim bad)))) ∧
    (∀ k v : Word, splitFirst '=' (trim bad) = some (k, v) →
      (trim bad).head? ≠ some '#' → cs.member (trim k) = false →
      parseConfigLines cs (good ++ bad :: rest) st
        = (st', some (ConfigError.unknownOption k))) ∧
    (∀ (k v : Word) (e : ε), splitFirst '=' (trim bad) = some (k, v) →
      (trim bad).head? ≠ some '#' → cs.member (trim k) = true →
      cs.setf (trim k) (trim v) st' = Except.error e →
      parseConfigLines cs (good ++ bad :: rest) st
        = (st', some (ConfigError.setErr e))) := by
  have happ : parseConfigLines cs (good ++ bad :: rest) st
      = parseConfigLines cs (bad :: rest) st' := by
    rw [parseConfigLines_append cs good (bad :: rest) st, hgood]
  refine ⟨?_, ?_, ?_⟩
  · intro hsp hne hhash
    have hcond : ¬(trim bad = [] ∨ (trim bad).head? = some '#') := by
      push_neg
      exact ⟨hne, hhash⟩
    rw [happ]
    simp only [parseConfigLines]
    rw [if_neg hcond, hsp]
  · intro k v hsp hhash hm
    have hne : trim bad ≠ [] := by
      intro h0
      rw [h0] at hsp
      simp [splitFirst] at hsp
    have hcond : ¬(trim bad = [] ∨ (trim bad).head? = some '#') := by
      push_neg
      exact ⟨hne, hhash⟩
    rw [happ]
    simp only [parseConfigLines]
    rw [if_neg hcond, hsp]
    simp [hm]
  · intro k v e hsp hhash hm hset
    have hne : trim bad ≠ [] := by
      intro h0
      rw [h0] at hsp
      simp [splitFirst] at hsp
    have hcond : ¬(trim bad = [] ∨ (trim bad).head? = some '#') := by
      push_neg
      exact ⟨hne, hhash⟩
    rw [happ]
    simp only [parseConfigLines]
    rw [if_neg hcond, hsp]
    simp [hm, hset]

/-- Witness for C8: the `int` flag set by the first line remains set
when the second line fails, and the third line is never applied. -/
theorem c8_first_error_no_rollback_witness :
    parseConfigLines testFlags ["int = 17".data, "foo".data, "string = x".data]
        (0, "STRING".data)
      = ((17, "STRING".data), some (ConfigError.illegalLine "foo".data)) := by
  have h := (c8_first_error_no_rollback testFlags ["int = 17".data] "foo".data
      ["string = x".data] (0, "STRING".data) (17, "STRING".data) (by decide)).1
  exact h (by decide) (by decide) (by decide)

/-- C9: loading from the fixed per-user path — the home directory joined
with the dot-prefixed caller-supplied base name — returns success with
the flag set completely unmodified when the file does not exist, while
every other failure to open the file is returned as an error. -/
theorem c9_missing_config_file {σ ε ω : Type} (cs : ConfigSet σ ε) (st : σ) :
    (∀ home basename : Word, configPath home basename = home ++ '/' :: '.' :: basename) ∧
    LoadConfig cs (OpenResult.notExist : OpenResult ω) st = (st, none) ∧
    (∀ e : ω, LoadConfig cs (OpenResult.openError e) st = (st, some (Sum.inl e))) :=
  ⟨fun _ _ => rfl, rfl, fun _ => rfl⟩

end GoCli
